import Mathlib

/-!
Verification of the TanyaAka ITB document-to-chunk pipeline and chat frontend.

The backend pipeline (PageFilter, ContinuationMerger, HierarchicalChunker,
vector-store upsert) is not present in the repository snapshot, so those
definitions are modelled from the specification; the frontend definitions
(ChatInput, App.handleSend, api.sendMessage, MessageBubble, SourceCard,
the Source and ChatMessage types) are shallow embeddings of the
TypeScript sources under src/frontend and src/unnamed.
-/

/-- Whitespace characters recognised by the pipeline's trimming. -/
def wsChar (c : Char) : Bool :=
  c = ' ' || c = '\t' || c = '\n' || c = '\r'

/-- Trim whitespace from both ends of a character list. -/
def trimChars (l : List Char) : List Char :=
  ((l.dropWhile wsChar).reverse.dropWhile wsChar).reverse

/-- Trim whitespace from both ends of a string. -/
def strTrim (s : String) : String :=
  String.mk (trimChars s.data)

/-- Split a character list at newline characters. -/
def splitNL : List Char → List (List Char)
  | [] => [[]]
  | c :: rest =>
    if c = '\n' then [] :: splitNL rest
    else
      match splitNL rest with
      | [] => [[c]]
      | l :: ls => (c :: l) :: ls

/-- The lines of a string. -/
def strLines (s : String) : List String :=
  (splitNL s.data).map String.mk

/-- Join a list of lines back into a single string with newline separators. -/
def joinLines : List String → String
  | [] => ""
  | [l] => l
  | l :: rest => l ++ "\n" ++ joinLines rest

/-- Does a character list start with the article keyword, a space and a digit,
as in an Indonesian regulation article declaration line? -/
def pasalHead : List Char → Bool
  | 'P' :: 'a' :: 's' :: 'a' :: 'l' :: ' ' :: d :: _ => d.isDigit
  | _ => false

/-- Modelled from the spec (section 4.3): the article-declaration pattern is
keyword plus number, optionally plus title; the line is matched after trimming
surrounding whitespace.  The DocumentProcessor source is not in the
repository snapshot. -/
def isArticleDecl (l : String) : Bool :=
  pasalHead (trimChars l.data)

/-- The numeric value of a list of decimal digit characters. -/
def natOfDigits (ds : List Char) : Nat :=
  ds.foldl (fun n c => 10 * n + (c.toNat - 48)) 0

/-- Parse a leading clause marker of shape open parenthesis, digits, close
parenthesis, returning the clause number. -/
def clauseHead : List Char → Option Nat
  | '(' :: rest =>
    match rest.span Char.isDigit with
    | (ds, rest2) =>
      match ds, rest2 with
      | [], _ => none
      | _ :: _, ')' :: _ => some (natOfDigits ds)
      | _ :: _, _ => none
  | _ => none

/-- Modelled from the spec (section 4.3): the clause marker pattern anchored at
line start, matched after trimming surrounding whitespace. -/
def clauseNumOf (l : String) : Option Nat :=
  clauseHead (trimChars l.data)

/-- Modelled from the spec (section 4.3): a section header line consists
entirely of uppercase letters and spaces and reaches a minimum length. -/
def isSectionHeader (minLen : Nat) (l : String) : Bool :=
  let t := trimChars l.data
  decide (minLen ≤ t.length) && t.all (fun c => c.isUpper || c = ' ') && !t.isEmpty

/-- The four classifications of a page's first non-empty line. -/
inductive LineClass where
  | articleDecl
  | clauseMark
  | sectionHeader
  | continuation
deriving DecidableEq, Repr

/-- Modelled from the spec (section 4.3): classify a line in fixed precedence
order, defaulting to continuation. -/
def classifyLine (minLen : Nat) (l : String) : LineClass :=
  if isArticleDecl l then .articleDecl
  else if (clauseNumOf l).isSome then .clauseMark
  else if isSectionHeader minLen l then .sectionHeader
  else .continuation

/-- The first line of a string that is non-empty after trimming. -/
def firstNonEmptyLine (s : String) : Option String :=
  (strLines s).find? (fun l => !(trimChars l.data).isEmpty)

/-- A page surviving the PageFilter, keeping its original index. -/
structure FilteredPage where
  index : Nat
  text : String
deriving DecidableEq, Repr

/-- Modelled from the spec (section 4.3): a page is folded into the current
accumulating block when its first non-empty line classifies as continuation,
or when it has no non-empty line at all. -/
def pageContinues (minLen : Nat) (p : FilteredPage) : Bool :=
  match firstNonEmptyLine p.text with
  | none => true
  | some l => decide (classifyLine minLen l = LineClass.continuation)

/-- A block of one or more merged pages. -/
structure MergedBlock where
  primary_page_index : Nat
  text : String
  merged_from : List Nat
deriving DecidableEq, Repr

/-- Modelled from the spec (section 4.3): the ContinuationMerger scan over the
remaining pages, carrying the current accumulating block.  A continuation page
is appended to the block and its index recorded in merged_from; any other page
closes the block and starts a new one; the last block is emitted at the end.
The ContinuationMerger source is not in the repository snapshot. -/
def mergeGo (minLen : Nat) (cur : MergedBlock) : List FilteredPage → List MergedBlock
  | [] => [cur]
  | p :: rest =>
    if pageContinues minLen p then
      mergeGo minLen
        { primary_page_index := cur.primary_page_index
          text := cur.text ++ "\n" ++ p.text
          merged_from := cur.merged_from ++ [p.index] } rest
    else
      cur :: mergeGo minLen
        { primary_page_index := p.index, text := p.text, merged_from := [] } rest

/-- Modelled from the spec (section 4.3): merge the filtered page sequence into
blocks, starting the first block at the first page. -/
def mergePages (minLen : Nat) : List FilteredPage → List MergedBlock
  | [] => []
  | p :: rest =>
    mergeGo minLen { primary_page_index := p.index, text := p.text, merged_from := [] } rest

/-- All page indices contained in a block: the primary index followed by the
indices folded in. -/
def blockIndices (b : MergedBlock) : List Nat :=
  b.primary_page_index :: b.merged_from

/-- The page indices of every block of a block list, in order. -/
def allIndices : List MergedBlock → List Nat
  | [] => []
  | b :: bs => blockIndices b ++ allIndices bs

/-- Is a list of naturals a chain of immediate successors? -/
def succChain : List Nat → Bool
  | a :: b :: t => decide (b = a + 1) && succChain (b :: t)
  | _ => true

/-- The terminal retrieval unit handed to the embedding stage. -/
structure Chunk where
  text : String
  article_context : Option String
  clause_number : Option Nat
  page : Nat
  source_document : String
  merged_page_indices : List Nat
deriving DecidableEq, Repr

/-- The running state of the per-line walk of the HierarchicalChunker: the
current article context, the lines and clause number of the segment being
accumulated, and the chunks emitted so far. -/
structure SegState where
  ctx : Option String
  segLines : List String
  segNum : Option Nat
  out : List Chunk
deriving Repr

/-- Modelled from the spec (sections 4.4 steps 3 and 4): close the current
segment, emitting one chunk stamped with the current context, clause number,
primary page and merged indices, unless the segment trims to empty. -/
def emitSeg (b : MergedBlock) (src : String) (st : SegState) : List Chunk :=
  if strTrim (joinLines st.segLines) = "" then st.out
  else st.out ++
    [{ text := strTrim (joinLines st.segLines)
       article_context := st.ctx
       clause_number := st.segNum
       page := b.primary_page_index
       source_document := src
       merged_page_indices := b.merged_from }]

/-- Modelled from the spec (section 4.4): process one line of a block.  An
article declaration line closes the current segment and updates the running
context to the declaration's label, earlier segments keeping the earlier
context; a clause marker line closes the current segment and starts a new one
numbered by the marker; any other line joins the current segment. -/
def stepLine (b : MergedBlock) (src : String) (st : SegState) (l : String) : SegState :=
  if isArticleDecl l then
    { ctx := some (strTrim l), segLines := [], segNum := none, out := emitSeg b src st }
  else
    match clauseNumOf l with
    | some n => { ctx := st.ctx, segLines := [l], segNum := some n, out := emitSeg b src st }
    | none => { ctx := st.ctx, segLines := st.segLines ++ [l], segNum := st.segNum, out := st.out }

/-- Modelled from the spec (section 4.4): chunk one merged block, given the
incoming article context; returns the chunks and the outgoing context.  The
HierarchicalChunker source is not in the repository snapshot. -/
def chunkBlock (ctx : Option String) (b : MergedBlock) (src : String) :
    List Chunk × Option String :=
  let st := (strLines b.text).foldl (stepLine b src)
    { ctx := ctx, segLines := [], segNum := none, out := [] }
  (emitSeg b src st, st.ctx)

/-- Modelled from the spec (section 4.4): chunk a sequence of merged blocks,
threading the article context as a fold accumulator across the whole
document. -/
def chunkBlocks (src : String) (ctx : Option String) : List MergedBlock → List Chunk
  | [] => []
  | b :: rest =>
    (chunkBlock ctx b src).1 ++ chunkBlocks src (chunkBlock ctx b src).2 rest

/-- The context left behind by a sequence of lines: the label of the last
article declaration among them, or the incoming context if there is none. -/
def lastDeclCtx (ctx : Option String) : List String → Option String
  | [] => ctx
  | l :: ls => lastDeclCtx (if isArticleDecl l then some (strTrim l) else ctx) ls

/-- The label of the last article declaration line of a block, if any. -/
def blockLastDecl (b : MergedBlock) : Option String :=
  lastDeclCtx none (strLines b.text)

/-- A block none of whose lines is an article declaration. -/
def blockNoDecl (b : MergedBlock) : Prop :=
  ∀ l ∈ strLines b.text, isArticleDecl l = false

/-- The article context after chunking a sequence of blocks from a given
incoming context. -/
def ctxAfter (src : String) (ctx : Option String) : List MergedBlock → Option String
  | [] => ctx
  | b :: rest => ctxAfter src (chunkBlock ctx b src).2 rest

/-- A raw extracted page. -/
structure Page where
  index : Nat
  raw_text : String
deriving DecidableEq, Repr

/-- The tunable thresholds of the heuristic PageFilter and merger. -/
structure FilterConfig where
  firstFew : Nat
  titleMaxLines : Nat
  shortLineLen : Nat
  minHeaderLen : Nat
deriving Repr

/-- Default thresholds used by the pipeline. -/
def defaultConfig : FilterConfig :=
  { firstFew := 3, titleMaxLines := 2, shortLineLen := 20, minHeaderLen := 6 }

/-- Does a line carry an article or clause marker? -/
def lineHasMarker (l : String) : Bool :=
  isArticleDecl l || (clauseNumOf l).isSome

/-- Does a page text contain at least one article or clause marker line? -/
def containsMarker (s : String) : Bool :=
  (strLines s).any lineHasMarker

/-- The lines of a string that are non-empty after trimming. -/
def nonEmptyLines (s : String) : List String :=
  (strLines s).filter (fun l => !(trimChars l.data).isEmpty)

/-- Is a line a table-of-contents heading? -/
def isDaftarIsiLine (l : String) : Bool :=
  strTrim l = "DAFTAR ISI" || strTrim l = "Daftar Isi"

/-- Does a character list contain a run of at least four dots, as in a dotted
leader line of a table of contents? -/
def fourDots : List Char → Bool
  | '.' :: '.' :: '.' :: '.' :: _ => true
  | _ :: rest => fourDots rest
  | [] => false

/-- Modelled from the spec (section 4.2): at least half of the non-empty lines
are dotted-leader lines. -/
def dottedLeaderHeavy (s : String) : Bool :=
  let ls := nonEmptyLines s
  decide (0 < ls.length) && decide (ls.length ≤ 2 * ls.countP (fun l => fourDots l.data))

/-- Modelled from the spec (section 4.2): some short line occurs at least twice
on the page. -/
def hasRepeatedShortLine (cfg : FilterConfig) (s : String) : Bool :=
  let ls := nonEmptyLines s
  ls.any (fun l => decide ((strTrim l).length ≤ cfg.shortLineLen) && decide (2 ≤ ls.count l))

/-- Modelled from the spec (section 4.2): the known table-of-contents
indicators. -/
def tocIndicators (cfg : FilterConfig) (s : String) : Bool :=
  (strLines s).any isDaftarIsiLine || dottedLeaderHeavy s || hasRepeatedShortLine cfg s

/-- Modelled from the spec (section 4.2): the title-page heuristic, a page with
very few non-empty lines. -/
def titleLike (cfg : FilterConfig) (s : String) : Bool :=
  decide ((nonEmptyLines s).length ≤ cfg.titleMaxLines)

/-- Modelled from the spec (section 4.2): a page is discarded iff it is among
the first few pages, contains no article or clause marker, and matches the
title-page or table-of-contents heuristics.  The absence-of-marker guard is
part of the discard condition because the spec requires that pages containing
a marker are never discarded whatever the thresholds.  The PageFilter source
is not in the repository snapshot. -/
def discardPage (cfg : FilterConfig) (p : Page) : Bool :=
  decide (p.index < cfg.firstFew) && !containsMarker p.raw_text &&
    (titleLike cfg p.raw_text || tocIndicators cfg p.raw_text)

/-- Normalise a character for header and footer comparison: every digit becomes
the same placeholder, so page-number substitution is ignored. -/
def normChar (c : Char) : Char :=
  if c.isDigit then '0' else c

/-- Normalise a line for header and footer comparison. -/
def normLine (l : String) : String :=
  String.mk (l.data.map normChar)

/-- Modelled from the spec (section 4.2): a line repeats verbatim, up to
page-number substitution, across a strict majority of the document's pages. -/
def lineRepeatsAcross (pages : List Page) (l : String) : Bool :=
  decide (pages.length <
    2 * pages.countP (fun p => (strLines p.raw_text).any (fun l2 => decide (normLine l2 = normLine l))))

/-- Modelled from the spec (section 4.2): strip from a page every line
identified as a repeating header or footer of the whole document. -/
def stripRepeats (pages : List Page) (s : String) : String :=
  joinLines ((strLines s).filter (fun l => !lineRepeatsAcross pages l))

/-- Modelled from the spec (section 4.2): the PageFilter drops discarded pages,
keeps the original page indices, and strips repeating headers and footers from
every remaining page. -/
def pageFilter (cfg : FilterConfig) (pages : List Page) : List FilteredPage :=
  (pages.filter (fun p => !discardPage cfg p)).map
    (fun p => { index := p.index, text := stripRepeats pages p.raw_text })

/-- Modelled from the spec (sections 2 and 4): the full document-to-chunk
pipeline over already-extracted pages: filter, merge continuations, chunk with
threaded article context. -/
def processDocument (cfg : FilterConfig) (src : String) (pages : List Page) : List Chunk :=
  chunkBlocks src none (mergePages cfg.minHeaderLen (pageFilter cfg pages))

/-- The storage identity of a chunk, derived from source document, page, clause
number and article context. -/
def chunkKey (c : Chunk) : String × Nat × Option Nat × Option String :=
  (c.source_document, c.page, c.clause_number, c.article_context)

/-- Modelled from the spec (section 6): the vector store is an idempotent
upsert keyed by chunk identity; upserting removes any stored entry with the
same key and appends the new entry.  The vector-store source is not in the
repository snapshot. -/
def upsert (store : List Chunk) (c : Chunk) : List Chunk :=
  store.filter (fun e => !decide (chunkKey e = chunkKey c)) ++ [c]

/-- Push a whole chunk list into the store, one upsert per chunk. -/
def upsertAll (store : List Chunk) (cs : List Chunk) : List Chunk :=
  cs.foldl upsert store

/-- A retrieval citation as declared in src/frontend/src/types.ts; note the
page field is declared nullable there. -/
structure Source where
  document : String
  page : Option Int
  content_snippet : String
deriving DecidableEq, Repr

/-- The chat response body as declared in src/frontend/src/types.ts. -/
structure ChatResponse where
  answer : String
  sources : List Source
  model : String
deriving DecidableEq, Repr

/-- The two chat roles of src/frontend/src/types.ts. -/
inductive Role where
  | user
  | assistant
deriving DecidableEq, Repr

/-- A chat message as declared in src/frontend/src/types.ts; the optional
boolean flags default to false and the optional sources to none. -/
structure ChatMessage where
  id : Nat
  role : Role
  content : String
  sources : Option (List Source)
  isLoading : Bool
  isError : Bool
deriving DecidableEq, Repr

/-- The possible outcomes of the fetch call inside sendMessage. -/
inductive FetchOutcome where
  | ok (body : ChatResponse)
  | httpError (detail : Option String)
  | networkError
deriving Repr

/-- Embedding of sendMessage in src/frontend/src/api.ts: a non-ok response
throws an error carrying the response detail or the fixed fallback text, a
network failure propagates as a thrown error, and an ok response yields the
parsed body. -/
def sendMessageResult : FetchOutcome → Except String ChatResponse
  | .ok b => .ok b
  | .httpError d => .error (d.getD "Gagal mengirim pertanyaan")
  | .networkError => .error "NetworkError"

/-- The user message appended by handleSend in src/unnamed/part_001. -/
def userMsg (uid : Nat) (q : String) : ChatMessage :=
  { id := uid, role := .user, content := q, sources := none, isLoading := false, isError := false }

/-- The assistant loading placeholder appended by handleSend. -/
def loadingMsg (lid : Nat) : ChatMessage :=
  { id := lid, role := .assistant, content := "", sources := none, isLoading := true, isError := false }

/-- The fixed error text of the catch branch of handleSend. -/
def errorText : String := "Gagal mengirim pertanyaan. Silakan coba lagi."

/-- The message that replaces the loading placeholder when the request
completes: the assistant answer with its sources on success, the fixed error
message with isError set on failure. -/
def completionMsg (lid : Nat) : Except String ChatResponse → ChatMessage
  | .ok r =>
    { id := lid, role := .assistant, content := r.answer, sources := some r.sources
      isLoading := false, isError := false }
  | .error _ =>
    { id := lid, role := .assistant, content := errorText, sources := none
      isLoading := false, isError := true }

/-- Embedding of handleSend in src/unnamed/part_001: append the user message
and the loading placeholder, then replace every message whose id equals the
placeholder id with the completion message.  The two fresh ids produced by
crypto.randomUUID are parameters. -/
def handleSend (q : String) (uid lid : Nat) (msgs : List ChatMessage)
    (res : Except String ChatResponse) : List ChatMessage :=
  (msgs ++ [userMsg uid q, loadingMsg lid]).map
    (fun m => if m.id = lid then completionMsg lid res else m)

/-- The four bubble shapes rendered by MessageBubble.tsx. -/
inductive Bubble where
  | loading
  | userBubble (content : String)
  | errorBubble (content : String)
  | answerBubble (content : String) (sources : Option (List Source))
deriving DecidableEq, Repr

/-- Embedding of MessageBubble in src/frontend/src/components/MessageBubble.tsx:
the loading placeholder renders first, then the user bubble, then the error
text when isError is set, otherwise the normal answer with its sources. -/
def renderBubble (m : ChatMessage) : Bubble :=
  if m.isLoading then .loading
  else if m.role = .user then .userBubble m.content
  else if m.isError then .errorBubble m.content
  else .answerBubble m.content m.sources

/-- Embedding of the page label of SourceCard.tsx lines 42 to 44: the page
suffix is rendered only when page is non-null, and shows page plus one. -/
def pageSuffix (s : Source) : Option Int :=
  match s.page with
  | some n => some (n + 1)
  | none => none

/-- Embedding of handleSubmit in ChatInput (src/unnamed/part_000): on submit,
nothing is sent and the input is kept when the trimmed input is empty or the
component is disabled; otherwise the trimmed input is sent and the field is
reset to the empty string. -/
def handleSubmit (input : String) (disabled : Bool) : Option String × String :=
  if strTrim input = "" then (none, input)
  else if disabled then (none, input)
  else (some (strTrim input), "")

/-- Modelled from the spec (section 6): the stored metadata record keeps the
chunk's page and source document, and the citation delivered to the client is
reconstructed from it; the chunk text stands in for the content snippet. -/
def chunkToSource (c : Chunk) : Source :=
  { document := c.source_document, page := some (Int.ofNat c.page), content_snippet := c.text }

/-- A concrete citation with a null page, as the client type admits. -/
def nullSource : Source :=
  { document := "Buku_Peraturan_Akademik_2024.pdf", page := none
    content_snippet := "Pasal 58 tentang Kelulusan" }

/-- A concrete two-page document whose second page begins mid-sentence. -/
def contPages : List Page :=
  [ { index := 5, raw_text := "(1) Setiap mahasiswa yang telah menyelesaikan" }
  , { index := 6, raw_text := "seluruh mata kuliah wajib." } ]

/-- A concrete document on which the ContinuationMerger records a gap in
merged_from: page 2 is a discarded table-of-contents page, while pages 1 and 3
are both continuations of page 0. -/
def gapPages : List Page :=
  [ { index := 0, raw_text := "(1) Mahasiswa wajib mengisi rencana studi" }
  , { index := 1, raw_text := "yang disetujui oleh dosen wali\npada setiap awal semester\nsebelum perkuliahan dimulai" }
  , { index := 2, raw_text := "DAFTAR ISI\nBab I Pendahuluan ......... 3\nBab II Pembelajaran ......... 5" }
  , { index := 3, raw_text := "dan diserahkan kepada fakultas." } ]

/-- A concrete synthetic document whose first two pages are a title page and a
table-of-contents page without clause or article markers. -/
def synPages : List Page :=
  [ { index := 0, raw_text := "PERATURAN AKADEMIK\nINSTITUT TEKNOLOGI BANDUNG" }
  , { index := 1, raw_text := "DAFTAR ISI\nBab I Ketentuan Umum ......... 3\nBab II Pembelajaran ......... 7" }
  , { index := 2, raw_text := "Pasal 1 Ketentuan Umum\n(1) Dalam peraturan ini yang dimaksud dengan mahasiswa adalah peserta didik\n(2) Semester adalah satuan waktu kegiatan" }
  , { index := 3, raw_text := "BAB II PEMBELAJARAN\nPasal 2 Beban Studi\n(1) Beban studi normal mahasiswa adalah delapan belas satuan kredit semester" } ]

/-- A concrete merged block carrying an article declaration and two clauses. -/
def pasal14Block : MergedBlock :=
  { primary_page_index := 9
    text := "Pasal 14 Rencana Studi Semester\n(1) Setiap mahasiswa wajib menyusun rencana studi\n(2) Batas maksimum SKS diatur oleh fakultas"
    merged_from := [] }

/-- A concrete merged block containing no article declaration. -/
def noDeclBlock : MergedBlock :=
  { primary_page_index := 10
    text := "(3) Perubahan rencana studi dilakukan pada masa perubahan"
    merged_from := [] }

/-- The shape every chunk emitted from a block has: trimmed non-empty text and
provenance fields copied from the block and the source document. -/
def goodChunk (b : MergedBlock) (src : String) (c : Chunk) : Prop :=
  strTrim c.text = c.text ∧ c.text ≠ "" ∧ c.page = b.primary_page_index ∧
    c.merged_page_indices = b.merged_from ∧ c.source_document = src

/-- The first of the two concrete filtered pages of the continuation
scenario. -/
def fp5 : FilteredPage :=
  { index := 5, text := "(1) Setiap mahasiswa yang telah menyelesaikan" }

/-- The second of the two concrete filtered pages of the continuation
scenario; it begins mid-sentence. -/
def fp6 : FilteredPage :=
  { index := 6, text := "seluruh mata kuliah wajib." }

/-- The single block the merger produces from the continuation scenario. -/
def contBlock : MergedBlock :=
  { primary_page_index := 5
    text := "(1) Setiap mahasiswa yang telah menyelesaikan\nseluruh mata kuliah wajib."
    merged_from := [6] }

/-- The single chunk the pipeline produces from the continuation scenario. -/
def contChunk : Chunk :=
  { text := "(1) Setiap mahasiswa yang telah menyelesaikan\nseluruh mata kuliah wajib."
    article_context := none, clause_number := some 1, page := 5
    source_document := "doc.pdf", merged_page_indices := [6] }

/-- The first chunk produced from the Pasal 14 block. -/
def pasal14Chunk1 : Chunk :=
  { text := "(1) Setiap mahasiswa wajib menyusun rencana studi"
    article_context := some "Pasal 14 Rencana Studi Semester"
    clause_number := some 1, page := 9
    source_document := "doc.pdf", merged_page_indices := [] }

/-- The substantive third page of the synthetic document. -/
def synPage2 : Page :=
  { index := 2
    raw_text := "Pasal 1 Ketentuan Umum\n(1) Dalam peraturan ini yang dimaksud dengan mahasiswa adalah peserta didik\n(2) Semester adalah satuan waktu kegiatan" }

/-! Lemmas about trimming. -/

theorem dropWhile_prefix_self {α : Type} {p : α → Bool} {l r : List α}
    (hl : l.dropWhile p = l) (hr : r <+: l) : r.dropWhile p = r := by
  cases r with
  | nil => simp
  | cons a t =>
    obtain ⟨s, hs⟩ := hr
    have ha : p a = false := by
      by_contra hpa
      have hpa2 : p a = true := by
        cases hpab : p a with
        | false => exact absurd hpab hpa
        | true => rfl
      rw [← hs, List.cons_append, List.dropWhile_cons, hpa2] at hl
      simp only [if_true] at hl
      have hlen := (@List.dropWhile_suffix _ (t ++ s) p).sublist.length_le
      rw [hl] at hlen
      simp at hlen
    simp [List.dropWhile_cons, ha]

theorem dropWhile_trimChars (l : List Char) :
    (trimChars l).dropWhile wsChar = trimChars l := by
  apply dropWhile_prefix_self (List.dropWhile_idempotent wsChar l)
  have h1 : ((l.dropWhile wsChar).reverse.dropWhile wsChar) <:+ (l.dropWhile wsChar).reverse :=
    List.dropWhile_suffix wsChar
  have h2 := List.reverse_prefix.mpr h1
  rw [List.reverse_reverse] at h2
  exact h2

theorem rev_dropWhile_trimChars (l : List Char) :
    (trimChars l).reverse.dropWhile wsChar = (trimChars l).reverse := by
  unfold trimChars
  rw [List.reverse_reverse]
  exact List.dropWhile_idempotent wsChar _

theorem trimChars_idem (l : List Char) : trimChars (trimChars l) = trimChars l := by
  conv_lhs => rw [trimChars]
  rw [dropWhile_trimChars, rev_dropWhile_trimChars, List.reverse_reverse]

theorem strTrim_idem (s : String) : strTrim (strTrim s) = strTrim s :=
  congrArg String.mk (trimChars_idem s.data)

theorem strTrim_empty : strTrim "" = "" := rfl

/-! Lemmas about the shape of emitted chunks. -/

theorem emitSeg_good {b : MergedBlock} {src : String} {st : SegState}
    (h : ∀ c ∈ st.out, goodChunk b src c) :
    ∀ c ∈ emitSeg b src st, goodChunk b src c := by
  intro c hc
  unfold emitSeg at hc
  by_cases ht : strTrim (joinLines st.segLines) = ""
  · rw [if_pos ht] at hc
    exact h c hc
  · rw [if_neg ht] at hc
    rcases List.mem_append.mp hc with h1 | h2
    · exact h c h1
    · rw [List.mem_singleton] at h2
      subst h2
      exact ⟨strTrim_idem _, ht, rfl, rfl, rfl⟩

theorem foldl_stepLine_good {b : MergedBlock} {src : String} :
    ∀ (ls : List String) (st : SegState),
      (∀ c ∈ st.out, goodChunk b src c) →
      ∀ c ∈ (ls.foldl (stepLine b src) st).out, goodChunk b src c := by
  intro ls
  induction ls with
  | nil => intro st h; simpa using h
  | cons l ls ih =>
    intro st h
    simp only [List.foldl_cons]
    apply ih
    intro c hc
    unfold stepLine at hc
    by_cases hd : isArticleDecl l
    · rw [if_pos hd] at hc
      exact emitSeg_good h c hc
    · rw [if_neg hd] at hc
      cases hcl : clauseNumOf l with
      | some n =>
        rw [hcl] at hc
        exact emitSeg_good h c hc
      | none =>
        rw [hcl] at hc
        exact h c hc

theorem chunkBlock_good {ctx : Option String} {b : MergedBlock} {src : String} :
    ∀ c ∈ (chunkBlock ctx b src).1, goodChunk b src c := by
  intro c hc
  unfold chunkBlock at hc
  exact emitSeg_good (foldl_stepLine_good _ _ (by simp)) c hc

theorem chunkBlocks_good (src : String) :
    ∀ (bs : List MergedBlock) (ctx : Option String) (c : Chunk),
      c ∈ chunkBlocks src ctx bs → ∃ b, b ∈ bs ∧ goodChunk b src c := by
  intro bs
  induction bs with
  | nil => intro ctx c hc; simp [chunkBlocks] at hc
  | cons b bs ih =>
    intro ctx c hc
    rw [chunkBlocks] at hc
    rcases List.mem_append.mp hc with h1 | h2
    · exact ⟨b, List.mem_cons_self b bs, chunkBlock_good c h1⟩
    · obtain ⟨b2, hb2, hg⟩ := ih _ c h2
      exact ⟨b2, List.mem_cons_of_mem b hb2, hg⟩

/-! Lemmas about article-context threading. -/

theorem stepLine_ctx (b : MergedBlock) (src : String) (st : SegState) (l : String) :
    (stepLine b src st l).ctx = if isArticleDecl l then some (strTrim l) else st.ctx := by
  unfold stepLine
  by_cases hd : isArticleDecl l
  · rw [if_pos hd, if_pos hd]
  · rw [if_neg hd, if_neg hd]
    cases clauseNumOf l <;> rfl

theorem foldl_stepLine_ctx (b : MergedBlock) (src : String) :
    ∀ (ls : List String) (st : SegState),
      (ls.foldl (stepLine b src) st).ctx = lastDeclCtx st.ctx ls := by
  intro ls
  induction ls with
  | nil => intro st; rfl
  | cons l ls ih =>
    intro st
    simp only [List.foldl_cons]
    rw [ih, stepLine_ctx]
    rfl

theorem chunkBlock_snd (ctx : Option String) (b : MergedBlock) (src : String) :
    (chunkBlock ctx b src).2 = lastDeclCtx ctx (strLines b.text) :=
  foldl_stepLine_ctx b src (strLines b.text) { ctx := ctx, segLines := [], segNum := none, out := [] }

theorem lastDeclCtx_noDecl :
    ∀ (ls : List String) (ctx : Option String),
      (∀ l ∈ ls, isArticleDecl l = false) → lastDeclCtx ctx ls = ctx := by
  intro ls
  induction ls with
  | nil => intro ctx _; rfl
  | cons l ls ih =>
    intro ctx h
    have hl : isArticleDecl l = false := h l (List.mem_cons_self l ls)
    show lastDeclCtx (if isArticleDecl l then some (strTrim l) else ctx) ls = ctx
    rw [if_neg (by simp [hl])]
    exact ih ctx (fun x hx => h x (List.mem_cons_of_mem l hx))

theorem lastDeclCtx_or :
    ∀ (ls : List String) (ctx : Option String),
      lastDeclCtx ctx ls = (lastDeclCtx none ls).or ctx := by
  intro ls
  induction ls with
  | nil => intro ctx; rfl
  | cons l ls ih =>
    intro ctx
    show lastDeclCtx (if isArticleDecl l then some (strTrim l) else ctx) ls =
      (lastDeclCtx (if isArticleDecl l then some (strTrim l) else none) ls).or ctx
    by_cases hd : isArticleDecl l
    · rw [if_pos hd, if_pos hd, ih (some (strTrim l))]
      cases hx : lastDeclCtx none ls <;> rfl
    · rw [if_neg hd, if_neg hd]
      exact ih ctx

theorem chunkBlock_snd_decl {ctx : Option String} {b : MergedBlock} {src : String}
    {L : String} (h : blockLastDecl b = some L) : (chunkBlock ctx b src).2 = some L := by
  unfold blockLastDecl at h
  rw [chunkBlock_snd, lastDeclCtx_or, h]
  rfl

theorem emitSeg_ctx {b : MergedBlock} {src : String} {st : SegState} {c0 : Option String}
    (hctx : st.ctx = c0) (h : ∀ c ∈ st.out, c.article_context = c0) :
    ∀ c ∈ emitSeg b src st, c.article_context = c0 := by
  intro c hc
  unfold emitSeg at hc
  by_cases ht : strTrim (joinLines st.segLines) = ""
  · rw [if_pos ht] at hc
    exact h c hc
  · rw [if_neg ht] at hc
    rcases List.mem_append.mp hc with h1 | h2
    · exact h c h1
    · rw [List.mem_singleton] at h2
      subst h2
      exact hctx

theorem foldl_stepLine_noDecl {b : MergedBlock} {src : String} {c0 : Option String} :
    ∀ (ls : List String) (st : SegState),
      (∀ l ∈ ls, isArticleDecl l = false) → st.ctx = c0 →
      (∀ c ∈ st.out, c.article_context = c0) →
      (ls.foldl (stepLine b src) st).ctx = c0 ∧
        ∀ c ∈ (ls.foldl (stepLine b src) st).out, c.article_context = c0 := by
  intro ls
  induction ls with
  | nil => intro st _ hctx hout; exact ⟨hctx, hout⟩
  | cons l ls ih =>
    intro st hnd hctx hout
    have hl : isArticleDecl l = false := hnd l (List.mem_cons_self l ls)
    simp only [List.foldl_cons]
    apply ih _ (fun x hx => hnd x (List.mem_cons_of_mem l hx))
    · rw [stepLine_ctx, if_neg (by simp [hl])]
      exact hctx
    · intro c hc
      unfold stepLine at hc
      rw [if_neg (by simp [hl])] at hc
      cases hcl : clauseNumOf l with
      | some n =>
        rw [hcl] at hc
        exact emitSeg_ctx hctx hout c hc
      | none =>
        rw [hcl] at hc
        exact hout c hc

theorem chunkBlock_noDecl {ctx : Option String} {b : MergedBlock} {src : String}
    (h : blockNoDecl b) :
    (∀ c ∈ (chunkBlock ctx b src).1, c.article_context = ctx) ∧
      (chunkBlock ctx b src).2 = ctx := by
  have h2 := @foldl_stepLine_noDecl b src ctx (strLines b.text)
    { ctx := ctx, segLines := [], segNum := none, out := [] } h rfl (by simp)
  exact ⟨fun c hc => emitSeg_ctx h2.1 h2.2 c hc, h2.1⟩

theorem chunkBlocks_append (src : String) :
    ∀ (xs ys : List MergedBlock) (ctx : Option String),
      chunkBlocks src ctx (xs ++ ys) =
        chunkBlocks src ctx xs ++ chunkBlocks src (ctxAfter src ctx xs) ys := by
  intro xs
  induction xs with
  | nil => intro ys ctx; rfl
  | cons b xs ih =>
    intro ys ctx
    show (chunkBlock ctx b src).1 ++ chunkBlocks src (chunkBlock ctx b src).2 (xs ++ ys) =
      ((chunkBlock ctx b src).1 ++ chunkBlocks src (chunkBlock ctx b src).2 xs) ++
        chunkBlocks src (ctxAfter src ctx (b :: xs)) ys
    rw [ih, List.append_assoc]
    rfl

theorem ctxAfter_append (src : String) :
    ∀ (xs ys : List MergedBlock) (ctx : Option String),
      ctxAfter src ctx (xs ++ ys) = ctxAfter src (ctxAfter src ctx xs) ys := by
  intro xs
  induction xs with
  | nil => intro ys ctx; rfl
  | cons b xs ih =>
    intro ys ctx
    exact ih ys (chunkBlock ctx b src).2

theorem ctxAfter_noDecl (src : String) :
    ∀ (bs : List MergedBlock) (ctx : Option String),
      (∀ x ∈ bs, blockNoDecl x) → ctxAfter src ctx bs = ctx := by
  intro bs
  induction bs with
  | nil => intro ctx _; rfl
  | cons b bs ih =>
    intro ctx h
    show ctxAfter src (chunkBlock ctx b src).2 bs = ctx
    rw [(chunkBlock_noDecl (h b (List.mem_cons_self b bs))).2]
    exact ih ctx (fun x hx => h x (List.mem_cons_of_mem b hx))

/-! Lemmas about the ContinuationMerger. -/

theorem mergeGo_allIndices (m : Nat) :
    ∀ (rest : List FilteredPage) (cur : MergedBlock),
      allIndices (mergeGo m cur rest) = blockIndices cur ++ rest.map FilteredPage.index := by
  intro rest
  induction rest with
  | nil => intro cur; simp [mergeGo, allIndices]
  | cons p rest ih =>
    intro cur
    by_cases hc : pageContinues m p
    · simp only [mergeGo]
      rw [if_pos hc, ih]
      simp [blockIndices, List.append_assoc]
    · simp only [mergeGo]
      rw [if_neg hc]
      simp only [allIndices]
      rw [ih]
      simp [blockIndices]

theorem mergePages_allIndices (m : Nat) :
    ∀ ps : List FilteredPage, allIndices (mergePages m ps) = ps.map FilteredPage.index := by
  intro ps
  cases ps with
  | nil => rfl
  | cons p rest =>
    show allIndices (mergeGo m { primary_page_index := p.index, text := p.text, merged_from := [] } rest) = _
    rw [mergeGo_allIndices]
    simp [blockIndices]

theorem mergeGo_super (m : Nat) :
    ∀ (rest : List FilteredPage) (cur : MergedBlock),
      ∃ b, b ∈ mergeGo m cur rest ∧ ∀ x ∈ blockIndices cur, x ∈ blockIndices b := by
  intro rest
  induction rest with
  | nil => intro cur; exact ⟨cur, by simp [mergeGo], fun x hx => hx⟩
  | cons p rest ih =>
    intro cur
    by_cases hc : pageContinues m p
    · obtain ⟨b, hb, hsub⟩ := ih
        { primary_page_index := cur.primary_page_index
          text := cur.text ++ "\n" ++ p.text
          merged_from := cur.merged_from ++ [p.index] }
      refine ⟨b, ?_, ?_⟩
      · simp only [mergeGo]
        rw [if_pos hc]
        exact hb
      · intro x hx
        apply hsub
        simp only [blockIndices, List.mem_cons, List.mem_append] at hx ⊢
        tauto
    · refine ⟨cur, ?_, fun x hx => hx⟩
      simp only [mergeGo]
      rw [if_neg hc]
      exact List.mem_cons_self cur _

theorem mergeGo_head_cont (m : Nat) (p : FilteredPage) (rest : List FilteredPage)
    (cur : MergedBlock) (hp : pageContinues m p = true) :
    ∃ b, b ∈ mergeGo m cur (p :: rest) ∧
      (∀ x ∈ blockIndices cur, x ∈ blockIndices b) ∧ p.index ∈ blockIndices b := by
  obtain ⟨b, hb, hsub⟩ := mergeGo_super m rest
    { primary_page_index := cur.primary_page_index
      text := cur.text ++ "\n" ++ p.text
      merged_from := cur.merged_from ++ [p.index] }
  refine ⟨b, ?_, ?_, ?_⟩
  · simp only [mergeGo]
    rw [if_pos hp]
    exact hb
  · intro x hx
    apply hsub
    simp only [blockIndices, List.mem_cons, List.mem_append] at hx ⊢
    tauto
  · apply hsub
    simp [blockIndices]

theorem mergeGo_adjacent (m : Nat) :
    ∀ (rest : List FilteredPage) (cur : MergedBlock) (i : Nat) (h : i + 1 < rest.length),
      pageContinues m (rest.get ⟨i + 1, h⟩) = true →
      ∃ b, b ∈ mergeGo m cur rest ∧
        (rest.get ⟨i, Nat.lt_of_succ_lt h⟩).index ∈ blockIndices b ∧
        (rest.get ⟨i + 1, h⟩).index ∈ blockIndices b := by
  intro rest
  induction rest with
  | nil => intro cur i h; exact absurd h (by simp)
  | cons p rest ih =>
    intro cur i h hcont
    cases i with
    | zero =>
      cases rest with
      | nil => exact absurd h (by simp)
      | cons p2 rest2 =>
        have hp2 : pageContinues m p2 = true := hcont
        by_cases hc : pageContinues m p
        · obtain ⟨b, hb, hsub, hpid⟩ := mergeGo_head_cont m p2 rest2
            { primary_page_index := cur.primary_page_index
              text := cur.text ++ "\n" ++ p.text
              merged_from := cur.merged_from ++ [p.index] } hp2
          refine ⟨b, ?_, ?_, hpid⟩
          · simp only [mergeGo]
            rw [if_pos hc]
            exact hb
          · apply hsub
            simp [blockIndices]
        · obtain ⟨b, hb, hsub, hpid⟩ := mergeGo_head_cont m p2 rest2
            { primary_page_index := p.index, text := p.text, merged_from := [] } hp2
          refine ⟨b, ?_, ?_, hpid⟩
          · simp only [mergeGo]
            rw [if_neg hc]
            exact List.mem_cons_of_mem cur hb
          · apply hsub
            simp [blockIndices]
    | succ j =>
      have h2 : j + 1 < rest.length := by simpa using h
      have hcont2 : pageContinues m (rest.get ⟨j + 1, h2⟩) = true := hcont
      by_cases hc : pageContinues m p
      · obtain ⟨b, hb, h1, hsq⟩ := ih
          { primary_page_index := cur.primary_page_index
            text := cur.text ++ "\n" ++ p.text
            merged_from := cur.merged_from ++ [p.index] } j h2 hcont2
        refine ⟨b, ?_, h1, hsq⟩
        simp only [mergeGo]
        rw [if_pos hc]
        exact hb
      · obtain ⟨b, hb, h1, hsq⟩ := ih
          { primary_page_index := p.index, text := p.text, merged_from := [] } j h2 hcont2
        refine ⟨b, ?_, h1, hsq⟩
        simp only [mergeGo]
        rw [if_neg hc]
        exact List.mem_cons_of_mem cur hb

theorem mem_allIndices :
    ∀ (bs : List MergedBlock) (x : Nat),
      x ∈ allIndices bs ↔ ∃ b, b ∈ bs ∧ x ∈ blockIndices b := by
  intro bs
  induction bs with
  | nil => intro x; simp [allIndices]
  | cons b bs ih =>
    intro x
    simp only [allIndices, List.mem_append, List.mem_cons, ih]
    constructor
    · rintro (h1 | ⟨b2, hb2, hx⟩)
      · exact ⟨b, Or.inl rfl, h1⟩
      · exact ⟨b2, Or.inr hb2, hx⟩
    · rintro ⟨b2, (rfl | hb2), hx⟩
      · exact Or.inl hx
      · exact Or.inr ⟨b2, hb2, hx⟩

theorem allIndices_nodup_unique :
    ∀ bs : List MergedBlock, (allIndices bs).Nodup →
      ∀ b1, b1 ∈ bs → ∀ b2, b2 ∈ bs → ∀ x, x ∈ blockIndices b1 → x ∈ blockIndices b2 →
        b1 = b2 := by
  intro bs
  induction bs with
  | nil => intro _ b1 h1; exact absurd h1 (List.not_mem_nil b1)
  | cons b bs ih =>
    intro hnd b1 hb1 b2 hb2 x hx1 hx2
    simp only [allIndices] at hnd
    rw [List.nodup_append] at hnd
    obtain ⟨hn1, hn2, hdisj⟩ := hnd
    rcases List.mem_cons.mp hb1 with rfl | hb1r
    · rcases List.mem_cons.mp hb2 with rfl | hb2r
      · rfl
      · exact absurd ((mem_allIndices bs x).mpr ⟨b2, hb2r, hx2⟩) (hdisj hx1)
    · rcases List.mem_cons.mp hb2 with rfl | hb2r
      · exact absurd ((mem_allIndices bs x).mpr ⟨b1, hb1r, hx1⟩) (hdisj hx2)
      · exact ih hn2 b1 hb1r b2 hb2r x hx1 hx2

theorem mergeGo_infix (m : Nat) :
    ∀ (rest : List FilteredPage) (cur : MergedBlock) (pre : List Nat),
      blockIndices cur <:+ pre →
      ∀ b ∈ mergeGo m cur rest, blockIndices b <:+: pre ++ rest.map FilteredPage.index := by
  intro rest
  induction rest with
  | nil =>
    intro cur pre hsuf b hb
    simp only [mergeGo, List.mem_singleton] at hb
    subst hb
    rw [List.map_nil, List.append_nil]
    exact hsuf.isInfix
  | cons p rest ih =>
    intro cur pre hsuf b hb
    by_cases hc : pageContinues m p
    · simp only [mergeGo] at hb
      rw [if_pos hc] at hb
      have hsuf2 : blockIndices
          { primary_page_index := cur.primary_page_index
            text := cur.text ++ "\n" ++ p.text
            merged_from := cur.merged_from ++ [p.index] } <:+ pre ++ [p.index] := by
        obtain ⟨s, hs⟩ := hsuf
        refine ⟨s, ?_⟩
        rw [← hs]
        simp [blockIndices, List.append_assoc]
      have hres := ih _ _ hsuf2 b hb
      simpa [List.append_assoc] using hres
    · simp only [mergeGo] at hb
      rw [if_neg hc] at hb
      rcases List.mem_cons.mp hb with rfl | hb2
      · obtain ⟨s, hs⟩ := hsuf
        refine ⟨s, (p :: rest).map FilteredPage.index, ?_⟩
        rw [hs]
      · have hsuf2 : blockIndices
            { primary_page_index := p.index, text := p.text, merged_from := [] } <:+
              pre ++ [p.index] := by
          refine ⟨pre, ?_⟩
          simp [blockIndices]
        have hres := ih _ _ hsuf2 b hb2
        simpa [List.append_assoc] using hres

theorem mergeGo_merged_src (m : Nat) (Q : Nat → Prop) :
    ∀ (rest : List FilteredPage) (cur : MergedBlock),
      (∀ x ∈ cur.merged_from, Q x) →
      (∀ p ∈ rest, pageContinues m p = true → Q p.index) →
      ∀ b ∈ mergeGo m cur rest, ∀ x ∈ b.merged_from, Q x := by
  intro rest
  induction rest with
  | nil =>
    intro cur hcur _ b hb
    simp only [mergeGo, List.mem_singleton] at hb
    subst hb
    exact hcur
  | cons p rest ih =>
    intro cur hcur hrest b hb
    by_cases hc : pageContinues m p
    · simp only [mergeGo] at hb
      rw [if_pos hc] at hb
      refine ih _ ?_ (fun q hq hqc => hrest q (List.mem_cons_of_mem p hq) hqc) b hb
      intro x hx
      rcases List.mem_append.mp hx with h1 | h2
      · exact hcur x h1
      · rw [List.mem_singleton] at h2
        subst h2
        exact hrest p (List.mem_cons_self p rest) hc
    · simp only [mergeGo] at hb
      rw [if_neg hc] at hb
      rcases List.mem_cons.mp hb with rfl | hb2
      · exact hcur
      · refine ih _ ?_ (fun q hq hqc => hrest q (List.mem_cons_of_mem p hq) hqc) b hb2
        intro x hx
        exact absurd hx (List.not_mem_nil x)

/-! Lemmas about the idempotent upsert store. -/

theorem upsert_keys_nodup {store : List Chunk} {c : Chunk}
    (h : (store.map chunkKey).Nodup) : ((upsert store c).map chunkKey).Nodup := by
  unfold upsert
  rw [List.map_append, List.nodup_append]
  refine ⟨?_, by simp, ?_⟩
  · exact h.sublist ((List.filter_sublist store).map chunkKey)
  · intro x hx hx2
    rw [List.mem_map] at hx
    obtain ⟨e, he, rfl⟩ := hx
    rw [List.mem_filter] at he
    have hne := he.2
    simp only [List.map_cons, List.map_nil, List.mem_singleton] at hx2
    simp [hx2] at hne

theorem upsertAll_keys_nodup :
    ∀ (cs store : List Chunk),
      (store.map chunkKey).Nodup → ((upsertAll store cs).map chunkKey).Nodup := by
  intro cs
  induction cs with
  | nil => intro s h; exact h
  | cons c cs ih => intro s h; exact ih _ (upsert_keys_nodup h)

theorem upsertAll_eq_filter :
    ∀ (cs s : List Chunk),
      upsertAll s cs =
        s.filter (fun e => !decide (chunkKey e ∈ cs.map chunkKey)) ++ upsertAll [] cs := by
  intro cs
  induction cs with
  | nil => intro s; simp [upsertAll]
  | cons c cs ih =>
    intro s
    have l1 : upsertAll s (c :: cs) = upsertAll (upsert s c) cs := rfl
    rw [l1, ih (upsert s c)]
    unfold upsert
    rw [List.filter_append, List.filter_filter]
    have l2 : upsertAll ([] : List Chunk) (c :: cs) =
        List.filter (fun e => !decide (chunkKey e ∈ cs.map chunkKey)) [c] ++ upsertAll [] cs := by
      have l3 : upsertAll ([] : List Chunk) (c :: cs) = upsertAll (upsert [] c) cs := rfl
      rw [l3, ih (upsert [] c)]
      rfl
    rw [l2, ← List.append_assoc]
    congr 1
    have hpt : ∀ e ∈ s,
        ((!decide (chunkKey e ∈ cs.map chunkKey)) && !decide (chunkKey e = chunkKey c)) =
          !decide (chunkKey e ∈ (c :: cs).map chunkKey) := by
      intro e _
      by_cases h1 : chunkKey e = chunkKey c <;>
        by_cases h2 : chunkKey e ∈ cs.map chunkKey <;>
          simp [h1, h2]
    rw [List.filter_congr hpt]

theorem mem_upsertAll :
    ∀ (cs s : List Chunk) (e : Chunk),
      e ∈ upsertAll s cs → e ∈ s ∨ chunkKey e ∈ cs.map chunkKey := by
  intro cs
  induction cs with
  | nil => intro s e he; exact Or.inl he
  | cons c cs ih =>
    intro s e he
    rcases ih (upsert s c) e he with h1 | h2
    · unfold upsert at h1
      rcases List.mem_append.mp h1 with ha | hb
      · exact Or.inl (List.mem_of_mem_filter ha)
      · rw [List.mem_singleton] at hb
        subst hb
        exact Or.inr (by simp)
    · exact Or.inr (by simp [h2])

theorem upsertAll_idem : ∀ cs s : List Chunk,
    upsertAll (upsertAll s cs) cs = upsertAll s cs := by
  intro cs s
  rw [upsertAll_eq_filter cs (upsertAll s cs), upsertAll_eq_filter cs s]
  rw [List.filter_append, List.filter_filter]
  simp only [Bool.and_self]
  have h2 : (upsertAll [] cs).filter (fun e => !decide (chunkKey e ∈ cs.map chunkKey)) = [] := by
    rw [List.filter_eq_nil_iff]
    intro e he
    rcases mem_upsertAll cs [] e he with h | h
    · exact absurd h (List.not_mem_nil e)
    · simp [h]
  rw [h2, List.append_nil]

/-! Claim theorems. -/

/-- Claim C1: for every document, a filtered page whose first non-empty line
classifies as a continuation (the page-boundary split case) lands in exactly
one merged block together with its predecessor page, so a clause split by a
page boundary is fully contained in one MergedBlock; concretely, the two-page
continuation document yields a single chunk carrying the full, unsplit clause
text. -/
theorem c1_no_split_invariant :
    (∀ (cfg : FilterConfig) (ps : List FilteredPage),
      (ps.map FilteredPage.index).Nodup →
      ∀ (i : Nat) (h : i + 1 < ps.length),
        pageContinues cfg.minHeaderLen (ps.get ⟨i + 1, h⟩) = true →
        ∃ b, b ∈ mergePages cfg.minHeaderLen ps ∧
          (ps.get ⟨i, Nat.lt_of_succ_lt h⟩).index ∈ blockIndices b ∧
          (ps.get ⟨i + 1, h⟩).index ∈ blockIndices b ∧
          ∀ b2, b2 ∈ mergePages cfg.minHeaderLen ps →
            (ps.get ⟨i + 1, h⟩).index ∈ blockIndices b2 → b2 = b) ∧
    processDocument defaultConfig "doc.pdf" contPages = [contChunk] := by
  constructor
  · intro cfg ps hnd i h hcont
    cases ps with
    | nil => exact absurd h (by simp)
    | cons p rest =>
      have hexists : ∃ b, b ∈ mergePages cfg.minHeaderLen (p :: rest) ∧
          ((p :: rest).get ⟨i, Nat.lt_of_succ_lt h⟩).index ∈ blockIndices b ∧
          ((p :: rest).get ⟨i + 1, h⟩).index ∈ blockIndices b := by
        cases i with
        | zero =>
          cases rest with
          | nil => exact absurd h (by simp)
          | cons p2 rest2 =>
            have hp2 : pageContinues cfg.minHeaderLen p2 = true := hcont
            obtain ⟨b, hb, hsub, hpid⟩ := mergeGo_head_cont cfg.minHeaderLen p2 rest2
              { primary_page_index := p.index, text := p.text, merged_from := [] } hp2
            exact ⟨b, hb, hsub p.index (by simp [blockIndices]), hpid⟩
        | succ j =>
          have h2 : j + 1 < rest.length := by simpa using h
          have hcont2 : pageContinues cfg.minHeaderLen (rest.get ⟨j + 1, h2⟩) = true := hcont
          obtain ⟨b, hb, ha, hb2⟩ := mergeGo_adjacent cfg.minHeaderLen rest
            { primary_page_index := p.index, text := p.text, merged_from := [] } j h2 hcont2
          exact ⟨b, hb, ha, hb2⟩
      obtain ⟨b, hb, hx1, hx2⟩ := hexists
      refine ⟨b, hb, hx1, hx2, ?_⟩
      intro b2 hb2 hx2b
      have hani : (allIndices (mergePages cfg.minHeaderLen (p :: rest))).Nodup := by
        rw [mergePages_allIndices]
        exact hnd
      exact allIndices_nodup_unique _ hani b2 hb2 b hb _ hx2b hx2
  · decide

/-- Witness for claim C1 at the concrete two-page continuation document: both
pages land in a single merged block, and that block is unique. -/
theorem c1_witness :
    ∃ b, b ∈ mergePages defaultConfig.minHeaderLen [fp5, fp6] ∧
      fp5.index ∈ blockIndices b ∧ fp6.index ∈ blockIndices b ∧
      ∀ b2, b2 ∈ mergePages defaultConfig.minHeaderLen [fp5, fp6] →
        fp6.index ∈ blockIndices b2 → b2 = b :=
  c1_no_split_invariant.1 defaultConfig [fp5, fp6] (by decide) 0 (by decide) (by decide)

/-- Claim C2: chunks produced after an article declaration and before the next
declaration carry that declaration's label as article_context.  Within a block
whose first line declares an article and which contains no later declaration,
every chunk carries that label; and across blocks, the chunks of a later
declaration-free block bj, separated from the declaring block b only by
declaration-free blocks, all carry the label of the last declaration of b,
the context being threaded as a single fold state over the whole document. -/
theorem c2_context_propagation :
    (∀ (src : String) (ctx : Option String) (b : MergedBlock) (l0 : String)
        (rest : List String),
      strLines b.text = l0 :: rest → isArticleDecl l0 = true →
      (∀ l ∈ rest, isArticleDecl l = false) →
      ∀ c ∈ (chunkBlock ctx b src).1, c.article_context = some (strTrim l0)) ∧
    (∀ (src : String) (ctx0 : Option String) (pre mid rest : List MergedBlock)
        (b bj : MergedBlock) (L : String),
      blockLastDecl b = some L →
      (∀ x ∈ mid, blockNoDecl x) → blockNoDecl bj →
      chunkBlocks src ctx0 (pre ++ b :: (mid ++ bj :: rest)) =
        chunkBlocks src ctx0 (pre ++ [b]) ++ chunkBlocks src (some L) mid ++
          (chunkBlock (some L) bj src).1 ++ chunkBlocks src (some L) rest ∧
      ∀ c ∈ (chunkBlock (some L) bj src).1, c.article_context = some L) := by
  constructor
  · intro src ctx b l0 rest hlines hdecl hnd c hc
    have hstep : (chunkBlock ctx b src).1 =
        emitSeg b src (rest.foldl (stepLine b src)
          { ctx := some (strTrim l0), segLines := [], segNum := none, out := [] }) := by
      unfold chunkBlock
      rw [hlines]
      simp only [List.foldl_cons]
      congr 1
      unfold stepLine
      rw [if_pos hdecl]
      rfl
    rw [hstep] at hc
    have h2 := @foldl_stepLine_noDecl b src (some (strTrim l0)) rest
      { ctx := some (strTrim l0), segLines := [], segNum := none, out := [] } hnd rfl (by simp)
    exact emitSeg_ctx h2.1 h2.2 c hc
  · intro src ctx0 pre mid rest b bj L hb hmid hbj
    have hctx1 : ctxAfter src ctx0 (pre ++ [b]) = some L := by
      rw [ctxAfter_append]
      show ctxAfter src (chunkBlock (ctxAfter src ctx0 pre) b src).2 [] = some L
      rw [chunkBlock_snd_decl hb]
      rfl
    have hsplit : pre ++ b :: (mid ++ bj :: rest) = (pre ++ [b]) ++ (mid ++ bj :: rest) := by
      simp
    constructor
    · rw [hsplit, chunkBlocks_append, hctx1,
        chunkBlocks_append src mid (bj :: rest) (some L),
        ctxAfter_noDecl src mid (some L) hmid]
      have hcons : chunkBlocks src (some L) (bj :: rest) =
          (chunkBlock (some L) bj src).1 ++
            chunkBlocks src (chunkBlock (some L) bj src).2 rest := rfl
      rw [hcons, (chunkBlock_noDecl hbj).2]
      simp [List.append_assoc]
    · exact (chunkBlock_noDecl hbj).1

/-- Witness for claim C2 at the concrete Pasal 14 block: the first chunk of
the block carries the declaration's label as its article context. -/
theorem c2_witness :
    pasal14Chunk1.article_context = some (strTrim "Pasal 14 Rencana Studi Semester") :=
  c2_context_propagation.1 "doc.pdf" none pasal14Block "Pasal 14 Rencana Studi Semester"
    ["(1) Setiap mahasiswa wajib menyusun rencana studi",
     "(2) Batas maksimum SKS diatur oleh fakultas"]
    (by decide) (by decide) (by decide) pasal14Chunk1 (by decide)

/-- Claim C3: the pipeline is a pure function, so re-processing an unchanged
document yields the same chunks and hence the same chunk identities; pushing
the resulting chunks into the store a second time leaves the store exactly as
after the first ingestion, and the store never holds two entries with the same
identity key. -/
theorem c3_idempotent_reingestion :
    ∀ (cfg : FilterConfig) (src : String) (pages : List Page) (store : List Chunk),
      upsertAll (upsertAll store (processDocument cfg src pages))
          (processDocument cfg src pages) =
        upsertAll store (processDocument cfg src pages) ∧
      ((store.map chunkKey).Nodup →
        ((upsertAll store (processDocument cfg src pages)).map chunkKey).Nodup) := by
  intro cfg src pages store
  exact ⟨upsertAll_idem _ _, fun h => upsertAll_keys_nodup _ _ h⟩

/-- Witness for claim C3 at the concrete two-page document and the empty
store: double ingestion equals single ingestion and the stored keys are
duplicate free. -/
theorem c3_witness :
    upsertAll (upsertAll [] (processDocument defaultConfig "doc.pdf" contPages))
        (processDocument defaultConfig "doc.pdf" contPages) =
      upsertAll [] (processDocument defaultConfig "doc.pdf" contPages) ∧
    ((upsertAll ([] : List Chunk) (processDocument defaultConfig "doc.pdf" contPages)).map
        chunkKey).Nodup :=
  ⟨(c3_idempotent_reingestion defaultConfig "doc.pdf" contPages []).1,
   (c3_idempotent_reingestion defaultConfig "doc.pdf" contPages []).2 (by simp)⟩

/-- Claim C4: every chunk the pipeline emits has text that is non-empty, and
non-empty even after trimming; a segment that trims to empty never becomes a
chunk. -/
theorem c4_nonempty_chunks :
    ∀ (cfg : FilterConfig) (src : String) (pages : List Page) (c : Chunk),
      c ∈ processDocument cfg src pages → strTrim c.text ≠ "" ∧ c.text ≠ "" := by
  intro cfg src pages c hc
  obtain ⟨b, _, h1, h2, _⟩ := chunkBlocks_good src _ _ c hc
  constructor
  · rw [h1]
    exact h2
  · exact h2

/-- Witness for claim C4 at the concrete two-page document's single chunk. -/
theorem c4_witness : strTrim contChunk.text ≠ "" ∧ contChunk.text ≠ "" :=
  c4_nonempty_chunks defaultConfig "doc.pdf" contPages contChunk (by decide)

/-- Counterexample for claim C5 as stated: on a document whose discarded
table-of-contents page sits between continuation pages, the merger records
merged_from = [1, 3], which is not a chain of immediate successors. -/
theorem c5_counterexample :
    ∃ b, b ∈ mergePages defaultConfig.minHeaderLen (pageFilter defaultConfig gapPages) ∧
      b.merged_from = [1, 3] ∧ succChain b.merged_from = false := by
  decide

/-- Claim C5 (amended): merged_from records exactly the pages classified as
continuations (so it is empty unless a continuation was detected); the pages
of a block are consecutive in the filtered sequence (the block's index list is
an infix of the filtered index sequence), and merged_from is strictly
increasing whenever the filtered indices are; indices are immediate
successors in the natural numbers only when the filter discarded no
intervening page. -/
theorem c5_merged_from_shape :
    ∀ (m : Nat) (ps : List FilteredPage) (b : MergedBlock), b ∈ mergePages m ps →
      blockIndices b <:+: ps.map FilteredPage.index ∧
      ((ps.map FilteredPage.index).Sorted (· < ·) → b.merged_from.Sorted (· < ·)) ∧
      (∀ i ∈ b.merged_from, ∃ p, p ∈ ps ∧ p.index = i ∧ pageContinues m p = true) := by
  intro m ps b hb
  have hinf : blockIndices b <:+: ps.map FilteredPage.index := by
    cases ps with
    | nil => simp [mergePages] at hb
    | cons p rest =>
      have hres := mergeGo_infix m rest
        { primary_page_index := p.index, text := p.text, merged_from := [] }
        [p.index] ⟨[], by simp [blockIndices]⟩ b hb
      simpa using hres
  refine ⟨hinf, ?_, ?_⟩
  · intro hsorted
    have hsub : List.Sublist b.merged_from (ps.map FilteredPage.index) :=
      (List.sublist_cons_self b.primary_page_index b.merged_from).trans hinf.sublist
    exact hsorted.sublist hsub
  · intro i hi
    cases ps with
    | nil => simp [mergePages] at hb
    | cons p rest =>
      refine mergeGo_merged_src m
        (fun x => ∃ q, q ∈ (p :: rest) ∧ q.index = x ∧ pageContinues m q = true) rest
        { primary_page_index := p.index, text := p.text, merged_from := [] }
        ?_ ?_ b hb i hi
      · intro x hx
        exact absurd hx (List.not_mem_nil x)
      · intro q hq hqc
        exact ⟨q, List.mem_cons_of_mem p hq, rfl, hqc⟩

/-- Witness for the amended claim C5 at the concrete two-page continuation
document: the merged block's index list is an infix of the filtered index
sequence. -/
theorem c5_witness :
    blockIndices contBlock <:+: [fp5, fp6].map FilteredPage.index :=
  (c5_merged_from_shape defaultConfig.minHeaderLen [fp5, fp6] contBlock (by decide)).1

/-- Claim C6: a page containing at least one article or clause marker is never
discarded by the PageFilter, whatever the thresholds; and the synthetic
document whose first two pages are a title page and a table-of-contents page
produces zero chunks originating from those two pages. -/
theorem c6_filter_never_drops_markers :
    (∀ (cfg : FilterConfig) (pages : List Page) (p : Page), p ∈ pages →
      containsMarker p.raw_text = true →
      ∃ fp, fp ∈ pageFilter cfg pages ∧ fp.index = p.index) ∧
    (∀ c ∈ processDocument defaultConfig "doc.pdf" synPages,
      c.page ≠ 0 ∧ c.page ≠ 1 ∧ 0 ∉ c.merged_page_indices ∧ 1 ∉ c.merged_page_indices) := by
  constructor
  · intro cfg pages p hp hm
    refine ⟨{ index := p.index, text := stripRepeats pages p.raw_text }, ?_, rfl⟩
    unfold pageFilter
    apply List.mem_map_of_mem
    rw [List.mem_filter]
    refine ⟨hp, ?_⟩
    simp [discardPage, hm]
  · decide

/-- Witness for claim C6 at the synthetic document's substantive third page:
it carries a marker and survives the filter with its index intact. -/
theorem c6_witness :
    ∃ fp, fp ∈ pageFilter defaultConfig synPages ∧ fp.index = 2 :=
  c6_filter_never_drops_markers.1 defaultConfig synPages synPage2 (by decide) (by decide)

/-! Frontend claim theorems. -/

theorem map_eq_self_of_id {α : Type} (f : α → α) :
    ∀ l : List α, (∀ a ∈ l, f a = a) → l.map f = l := by
  intro l
  induction l with
  | nil => intro _; rfl
  | cons a l ih =>
    intro h
    simp only [List.map_cons]
    rw [h a (List.mem_cons_self a l), ih (fun x hx => h x (List.mem_cons_of_mem a hx))]

/-- Claim C7: whatever the fetch outcome, handleSend leaves in the message list
an assistant message with the placeholder id such that on failure (non-ok
response or network error) it carries isError and the fixed error text and
renders as the error bubble, never as an answer bubble, while on success it
renders as the normal answer bubble with the response's sources. -/
theorem c7_failure_distinguishable :
    ∀ (msgs : List ChatMessage) (q : String) (uid lid : Nat) (fo : FetchOutcome),
      ∃ m, m ∈ handleSend q uid lid msgs (sendMessageResult fo) ∧ m.id = lid ∧
        (match fo with
         | .ok r => m.isError = false ∧
             renderBubble m = .answerBubble r.answer (some r.sources)
         | .httpError _ => m.isError = true ∧ m.content = errorText ∧
             renderBubble m = .errorBubble errorText ∧
             ∀ a so, renderBubble m ≠ Bubble.answerBubble a so
         | .networkError => m.isError = true ∧ m.content = errorText ∧
             renderBubble m = .errorBubble errorText ∧
             ∀ a so, renderBubble m ≠ Bubble.answerBubble a so) := by
  intro msgs q uid lid fo
  refine ⟨completionMsg lid (sendMessageResult fo), ?_, ?_, ?_⟩
  · unfold handleSend
    refine List.mem_map.mpr ⟨loadingMsg lid, ?_, ?_⟩
    · simp [List.mem_append]
    · simp [loadingMsg]
  · cases fo <;> rfl
  · cases fo with
    | ok r =>
      exact ⟨rfl, by simp [renderBubble, completionMsg, sendMessageResult]⟩
    | httpError d =>
      have hr : renderBubble (completionMsg lid (sendMessageResult (.httpError d))) =
          .errorBubble errorText := by
        simp [renderBubble, completionMsg, sendMessageResult]
      refine ⟨rfl, rfl, hr, ?_⟩
      intro a so h
      rw [hr] at h
      exact Bubble.noConfusion h
    | networkError =>
      have hr : renderBubble (completionMsg lid (sendMessageResult .networkError)) =
          .errorBubble errorText := by
        simp [renderBubble, completionMsg, sendMessageResult]
      refine ⟨rfl, rfl, hr, ?_⟩
      intro a so h
      rw [hr] at h
      exact Bubble.noConfusion h

/-- Claim C10: with fresh ids, handleSend appends exactly the user message and
one completion message carrying the placeholder id, leaving every earlier
message, the list order and the length plus two intact; the completion
replaces only the message whose id equals the placeholder's. -/
theorem c10_handle_send_frame :
    ∀ (msgs : List ChatMessage) (q : String) (uid lid : Nat)
      (res : Except String ChatResponse),
      (∀ m ∈ msgs, m.id ≠ lid) → uid ≠ lid →
      handleSend q uid lid msgs res = msgs ++ [userMsg uid q, completionMsg lid res] ∧
      (handleSend q uid lid msgs res).length = msgs.length + 2 := by
  intro msgs q uid lid res hfresh huid
  have hmain : handleSend q uid lid msgs res =
      msgs ++ [userMsg uid q, completionMsg lid res] := by
    unfold handleSend
    rw [List.map_append]
    congr 1
    · apply map_eq_self_of_id
      intro m hm
      rw [if_neg (hfresh m hm)]
    · simp [userMsg, loadingMsg, huid]
  exact ⟨hmain, by rw [hmain]; simp⟩

/-- Witness for claim C10 on the empty message list with fresh ids and a
failed request. -/
theorem c10_witness :
    handleSend "Halo" 0 1 [] (Except.error "x") =
      [] ++ [userMsg 0 "Halo", completionMsg 1 (Except.error "x")] ∧
    (handleSend "Halo" 0 1 [] (Except.error "x")).length = List.length ([] : List ChatMessage) + 2 :=
  c10_handle_send_frame [] "Halo" 0 1 (Except.error "x") (by simp) (by decide)

/-- Counterexample for claim C8 as stated: the client-side citation type of
src/frontend/src/types.ts declares page nullable, a citation with a null page
is a well-typed delivered value rendered by SourceCard without a page label,
so the page field is not always present and non-null. -/
theorem c8_counterexample :
    nullSource.page = none ∧ pageSuffix nullSource = none ∧
      ¬ (∀ s : Source, s.page ≠ none) :=
  ⟨rfl, rfl, fun h => h nullSource rfl⟩

/-- Claim C8 (amended): every chunk emitted from a merged block is stamped with
the block's primary page and merged indices, and the citation reconstructed
from a chunk carries that page as a non-null integer; the client-side Source
contract, however, admits a null page, and SourceCard renders the page suffix,
showing page plus one, exactly when the page is non-null. -/
theorem c8_page_field :
    (∀ (ctx : Option String) (b : MergedBlock) (src : String) (c : Chunk),
      c ∈ (chunkBlock ctx b src).1 →
      c.page = b.primary_page_index ∧ c.merged_page_indices = b.merged_from ∧
        (chunkToSource c).page = some (Int.ofNat c.page)) ∧
    (∀ s : Source, (pageSuffix s).isSome ↔ s.page.isSome) ∧
    (∀ (s : Source) (n : Int), s.page = some n → pageSuffix s = some (n + 1)) := by
  refine ⟨?_, ?_, ?_⟩
  · intro ctx b src c hc
    obtain ⟨_, _, hp, hm, _⟩ := chunkBlock_good c hc
    exact ⟨hp, hm, rfl⟩
  · intro s
    cases hs : s.page <;> simp [pageSuffix, hs]
  · intro s n hp
    simp [pageSuffix, hp]

/-- Witness for the amended claim C8 at the concrete Pasal 14 chunk and its
reconstructed citation. -/
theorem c8_witness :
    (pasal14Chunk1.page = pasal14Block.primary_page_index ∧
      pasal14Chunk1.merged_page_indices = pasal14Block.merged_from ∧
      (chunkToSource pasal14Chunk1).page = some (Int.ofNat pasal14Chunk1.page)) ∧
    pageSuffix (chunkToSource pasal14Chunk1) = some ((9 : Int) + 1) :=
  ⟨c8_page_field.1 none pasal14Block "doc.pdf" pasal14Chunk1 (by decide),
   c8_page_field.2.2 (chunkToSource pasal14Chunk1) 9 (by decide)⟩

/-- Claim C9: on submit, the ChatInput invokes onSend exactly when the trimmed
input is non-empty and the component is not disabled; when invoked the
argument is exactly the trimmed input, never empty, and the input field is
reset to the empty string; otherwise the field is kept unchanged. -/
theorem c9_chat_input_submit :
    ∀ (input : String) (disabled : Bool),
      (((handleSubmit input disabled).1).isSome ↔
        (strTrim input ≠ "" ∧ disabled = false)) ∧
      (∀ s, (handleSubmit input disabled).1 = some s →
        s = strTrim input ∧ s ≠ "" ∧ (handleSubmit input disabled).2 = "") ∧
      ((handleSubmit input disabled).1 = none → (handleSubmit input disabled).2 = input) := by
  intro input disabled
  by_cases h : strTrim input = ""
  · cases disabled <;> simp [handleSubmit, h]
  · cases disabled with
    | true => simp [handleSubmit, h]
    | false =>
      refine ⟨by simp [handleSubmit, h], ?_, by simp [handleSubmit, h]⟩
      intro s hs
      simp only [handleSubmit, if_neg h, if_neg (by simp : ¬ (false : Bool) = true)] at hs ⊢
      rw [Option.some_inj] at hs
      subst hs
      simp [h]

/-- Witness for claim C9 at a concrete padded input in the enabled state: a
send happens, the sent text is the trimmed input, and the field is reset. -/
theorem c9_witness :
    (handleSubmit " halo " false).1.isSome ∧
      ("halo" = strTrim " halo " ∧ "halo" ≠ "" ∧ (handleSubmit " halo " false).2 = "") :=
  ⟨(c9_chat_input_submit " halo " false).1.mpr ⟨by decide, rfl⟩,
   (c9_chat_input_submit " halo " false).2.1 "halo" (by decide)⟩
